import Mathlib

/-!
Verification of the near-sets repository: a multi-asset basket ("token set")
engine with a fee split (src/token-set) and a deploy-or-refund saga
(src/deployer-contract). Machine integers (u128/u32) are embedded as `Nat`;
operations that panic in Rust (division by zero, checked over/underflow,
explicit `panic!` validation) are embedded as `Except` errors, so an error
result models a reverted call with no state retained.
-/

namespace NearSets

/-- Constant `FEE_DENOMINATOR` from src/token-set/src/token_set_info.rs. -/
def FEE_DENOMINATOR : Nat := 1000000000000000

/-- Largest value of a `u128` (`u128::MAX`). -/
def U128_MAX : Nat := 2 ^ 128 - 1

/-- Structure `shared::TokenWithRatio`: one basket component (asset id and its integer
ratio, a `u32` in the source). `TokenWithRatioValid` carries the same data with
a validated account id; both are embedded as this one structure. -/
structure TokenWithRatio where
  token_id : String
  ratio : Nat
  deriving DecidableEq, Repr

/-- Structure `FeeReceiver` from src/token-set/src/lib.rs: the fee policy. -/
structure FeeReceiver where
  owner_fee : Nat
  platform_fee : Nat
  platform_id : String
  updatable : Bool
  deriving DecidableEq, Repr

/-- Structure `SetInfo` from src/token-set/src/lib.rs: ordered component list plus fee
policy. The source stores the components in a `near_sdk` `Vector`; embedded as
a `List` in push order. -/
structure SetInfo where
  ratios : List TokenWithRatio
  fee : FeeReceiver
  deriving DecidableEq, Repr

/-- Every way a token-set call can abort (a Rust `panic!`, which reverts the
whole call on NEAR). Constructors are distinct per distinct panic site /
message in the source. -/
inductive TokenSetErr where
  | emptyBasket
  | duplicateAsset
  | feeOutOfRange
  | feeSumOutOfRange
  | divisionByZero
  | insufficientBasketBalance
  | castOverflow
  | subtractionUnderflow
  | insufficientInternalBalance
  | insufficientDerivativeBalance
  | feeNotUpdatable
  | notOwner
  deriving DecidableEq, Repr

/-- The duplicate-detection loop of `SetInfo::new`
(src/token-set/src/token_set_info.rs lines 17-27): walk the supplied list,
tracking the set of already-seen token ids (`token_ids: HashSet` in the
source, embedded as a list with membership test), aborting at the first
repeated id and otherwise pushing the components in order. -/
def checkUnique : List TokenWithRatio → List String → Except TokenSetErr (List TokenWithRatio)
  | [], _ => .ok []
  | r :: rest, seen =>
    if r.token_id ∈ seen then .error .duplicateAsset
    else
      match checkUnique rest (r.token_id :: seen) with
      | .error e => .error e
      | .ok rs => .ok (r :: rs)

/-- Constructor `SetInfo::new` (src/token-set/src/token_set_info.rs lines 11-40): reject an
empty component list, then a duplicated token id, then a fee above the
denominator, then a fee sum above the denominator; otherwise record the
components in order with the supplied fee policy. -/
def SetInfo.new (set_ratios : List TokenWithRatio) (set_initial_fee : FeeReceiver) :
    Except TokenSetErr SetInfo :=
  if set_ratios.length = 0 then .error .emptyBasket
  else
    match checkUnique set_ratios [] with
    | .error e => .error e
    | .ok ratios =>
      if FEE_DENOMINATOR < set_initial_fee.owner_fee ∨
          FEE_DENOMINATOR < set_initial_fee.platform_fee then
        .error .feeOutOfRange
      else if FEE_DENOMINATOR < set_initial_fee.owner_fee + set_initial_fee.platform_fee then
        .error .feeSumOutOfRange
      else .ok { ratios := ratios, fee := set_initial_fee }

/-- The token-set contract state (src/token-set/src/lib.rs `Contract`).
`token` is the derivative-unit fungible-token balance map and
`internalBalance` the per-account per-asset internal-balance ledger; both are
owned by external collaborator crates and are embedded as their balance maps
(spec section 1 treats them as capability interfaces). -/
structure Contract where
  owner_id : String
  token : String → Nat
  internalBalance : String → String → Nat
  set_info : SetInfo

/-- Modelled from the spec: the ledger capability `deposit(account, amount)`
of the external `FungibleToken` collaborator (`internal_deposit`): credit the
derivative-unit balance of the account. -/
def internal_deposit (bal : String → Nat) (account : String) (amount : Nat) : String → Nat :=
  fun a => if a = account then bal a + amount else bal a

/-- Modelled from the spec: the ledger capability
`withdraw(account, amount) -> fails if balance < amount` of the external
`FungibleToken` collaborator (`internal_withdraw`). -/
def internal_withdraw (bal : String → Nat) (account : String) (amount : Nat) :
    Except TokenSetErr (String → Nat) :=
  if amount ≤ bal account then
    .ok (fun a => if a = account then bal a - amount else bal a)
  else .error .insufficientDerivativeBalance

/-- Modelled from the spec: the internal-balances capability `deposit` of the
external `near_internal_balances_plugin` collaborator (`increase_balance`):
credit the per-asset ledger balance of `account` for asset `token_id`. -/
def increase_balance (c : Contract) (account token_id : String) (amount : Nat) : Contract :=
  { c with internalBalance := fun a t =>
      if a = account ∧ t = token_id then c.internalBalance a t + amount
      else c.internalBalance a t }

/-- Modelled from the spec: the internal-balances capability
`withdraw -> fails if balance < amount` of the external
`near_internal_balances_plugin` collaborator (`subtract_balance`): debit the
per-asset ledger balance, failing when it is short. -/
def subtract_balance (c : Contract) (account token_id : String) (amount : Nat) :
    Except TokenSetErr Contract :=
  if amount ≤ c.internalBalance account token_id then
    .ok { c with internalBalance := fun a t =>
        if a = account ∧ t = token_id then c.internalBalance a t - amount
        else c.internalBalance a t }
  else .error .insufficientInternalBalance

/-- Embedding of `get_ft_balance_internal`: read the per-asset ledger balance. -/
def get_ft_balance_internal (c : Contract) (account token_id : String) : Nat :=
  c.internalBalance account token_id

/-- The loop of `get_max_amount` (src/token-set/src/token_set_info.rs lines
106-118): running minimum over `bal / ratio` per component, starting from
`u128::MAX`. Rust `u128` division panics when the divisor is zero, embedded as
the `divisionByZero` error. -/
def get_max_amount_loop (bal : String → Nat) :
    List TokenWithRatio → Nat → Except TokenSetErr Nat
  | [], min => .ok min
  | r :: rest, min =>
    if r.ratio = 0 then .error .divisionByZero
    else
      let amount_out := bal r.token_id / r.ratio
      get_max_amount_loop bal rest (if amount_out < min then amount_out else min)

/-- Embedding of `get_max_amount` (src/token-set/src/token_set_info.rs lines 106-118). -/
def get_max_amount (c : Contract) (account_id : String) : Except TokenSetErr Nat :=
  get_max_amount_loop (fun t => get_ft_balance_internal c account_id t)
    c.set_info.ratios U128_MAX

/-- One fee increment of `wrap_internal` (src/token-set/src/token_set_info.rs
lines 80-85): `(U256::from(amount) * U256::from(fee) / U256::from(DENOM))
.as_u128()`. The 256-bit product of two `u128` values cannot overflow, so the
quotient is exact; `as_u128` panics (here: `castOverflow`) when the quotient
does not fit in a `u128`. -/
def mul_div_fee (amount fee : Nat) : Except TokenSetErr Nat :=
  let q := amount * fee / FEE_DENOMINATOR
  if q < 2 ^ 128 then .ok q else .error .castOverflow

/-- The fee-split arithmetic of `wrap_internal` (src/token-set/src/
token_set_info.rs lines 80-87): the owner and platform increments and the
caller share `amount_wrap - owner_inrcr - platform_incr`. The two `u128`
subtractions are checked (a NEAR contract is built with overflow checks), so
an underflow is embedded as the `subtractionUnderflow` error. -/
def fee_increments (amount_wrap : Nat) (fee : FeeReceiver) :
    Except TokenSetErr (Nat × Nat × Nat) :=
  match mul_div_fee amount_wrap fee.owner_fee with
  | .error e => .error e
  | .ok owner_inrcr =>
    match mul_div_fee amount_wrap fee.platform_fee with
    | .error e => .error e
    | .ok platform_incr =>
      if owner_inrcr ≤ amount_wrap then
        if platform_incr ≤ amount_wrap - owner_inrcr then
          .ok (owner_inrcr, platform_incr, amount_wrap - owner_inrcr - platform_incr)
        else .error .subtractionUnderflow
      else .error .subtractionUnderflow

/-- The loop of `decrease_potentials` (src/token-set/src/token_set_info.rs
lines 99-104): debit `ratio * amount_out` of every component from
the per-asset ledger balance of `account_id`, in component order. -/
def decrease_potentials_loop (account_id : String) (amount_out : Nat) :
    List TokenWithRatio → Contract → Except TokenSetErr Contract
  | [], c => .ok c
  | r :: rest, c =>
    match subtract_balance c account_id r.token_id (r.ratio * amount_out) with
    | .error e => .error e
    | .ok c' => decrease_potentials_loop account_id amount_out rest c'

/-- Embedding of `decrease_potentials` (src/token-set/src/token_set_info.rs lines 99-104). -/
def decrease_potentials (c : Contract) (amount_out : Nat) (account_id : String) :
    Except TokenSetErr Contract :=
  decrease_potentials_loop account_id amount_out c.set_info.ratios c

/-- Embedding of `wrap_internal` (src/token-set/src/token_set_info.rs lines 68-97):
compute the maximum wrappable amount of the caller, default the requested amount to
it, reject a request above it, split the fee, credit the three derivative-unit
balances, debit the basket components, and return the gross amount wrapped.
`caller` embeds `env::predecessor_account_id()`. -/
def wrap_internal (c : Contract) (caller owner : String) (amount : Option Nat) :
    Except TokenSetErr (Contract × Nat) :=
  match get_max_amount c caller with
  | .error e => .error e
  | .ok max_amount_wrapped =>
    let amount_wrap := amount.getD max_amount_wrapped
    if max_amount_wrapped < amount_wrap then .error .insufficientBasketBalance
    else
      match fee_increments amount_wrap c.set_info.fee with
      | .error e => .error e
      | .ok (owner_inrcr, platform_incr, amount_wrap_caller) =>
        let c₁ := { c with token := internal_deposit c.token caller amount_wrap_caller }
        let c₂ := { c₁ with token := internal_deposit c₁.token owner owner_inrcr }
        let c₃ :=
          { c₂ with token := internal_deposit c₂.token c₂.set_info.fee.platform_id platform_incr }
        match decrease_potentials c₃ amount_wrap caller with
        | .error e => .error e
        | .ok c₄ => .ok (c₄, amount_wrap)

/-- The loop of `on_burn` (src/token-set/src/token_set_info.rs lines 44-49):
credit `ratio * amount` of every component to `account_id`. -/
def on_burn_loop (account_id : String) (amount : Nat) :
    List TokenWithRatio → Contract → Contract
  | [], c => c
  | r :: rest, c =>
    on_burn_loop account_id amount rest
      (increase_balance c account_id r.token_id (r.ratio * amount))

/-- Embedding of `on_burn` (src/token-set/src/token_set_info.rs lines 44-49). -/
def on_burn (c : Contract) (account_id : String) (amount : Nat) : Contract :=
  on_burn_loop account_id amount c.set_info.ratios c

/-- Embedding of `unwrap_token` (src/token-set/src/token_set_info.rs lines 51-55): withdraw
`amount` derivative units from the caller, then credit every component by
`ratio * amount`. No fee is charged. -/
def unwrap_token (c : Contract) (caller : String) (amount : Nat) :
    Except TokenSetErr Contract :=
  match internal_withdraw c.token caller amount with
  | .error e => .error e
  | .ok tok => .ok (on_burn { c with token := tok } caller amount)

/-- Embedding of `change_owner_fee` (src/token-set/src/token_set_info.rs lines 57-62):
reject unless the fee was marked updatable, then overwrite `fee.owner_fee`
with `new_fee` without any range re-validation. -/
def change_owner_fee (c : Contract) (new_fee : Nat) : Except TokenSetErr Contract :=
  if c.set_info.fee.updatable then
    .ok { c with set_info := { c.set_info with fee :=
        { c.set_info.fee with owner_fee := new_fee } } }
  else .error .feeNotUpdatable

/-- Embedding of `update_owner_fee` (src/token-set/src/lib.rs lines 132-142): assert the
caller is the contract owner, then delegate to `change_owner_fee`. -/
def update_owner_fee (c : Contract) (caller : String) (new_fee : Nat) :
    Except TokenSetErr Contract :=
  if caller = c.owner_id then change_owner_fee c new_fee else .error .notOwner

/-- The public `wrap` entry point (src/token-set/src/lib.rs lines 120-124):
it calls `wrap_internal(&self.owner_id, amount)` and discards the returned
amount — the return type of the Rust method is the unit type, so only the mutated
state survives. -/
def Contract.wrap (c : Contract) (caller : String) (amount : Option Nat) :
    Except TokenSetErr Contract :=
  (wrap_internal c caller c.owner_id amount).map Prod.fst

/-! ## C1: exact fee split in `wrap_internal` -/

/-- The two floored fee increments never exceed the amount when the fee sum is
bounded by the denominator. -/
theorem increments_sum_le (amount ofee pfee : Nat)
    (hfee : ofee + pfee ≤ FEE_DENOMINATOR) :
    amount * ofee / FEE_DENOMINATOR + amount * pfee / FEE_DENOMINATOR ≤ amount := by
  have hD : 0 < FEE_DENOMINATOR := by norm_num [FEE_DENOMINATOR]
  have h1 : amount * ofee / FEE_DENOMINATOR * FEE_DENOMINATOR ≤ amount * ofee :=
    Nat.div_mul_le_self _ _
  have h2 : amount * pfee / FEE_DENOMINATOR * FEE_DENOMINATOR ≤ amount * pfee :=
    Nat.div_mul_le_self _ _
  have hsum : (amount * ofee / FEE_DENOMINATOR + amount * pfee / FEE_DENOMINATOR) *
      FEE_DENOMINATOR ≤ amount * FEE_DENOMINATOR := by
    calc (amount * ofee / FEE_DENOMINATOR + amount * pfee / FEE_DENOMINATOR) *
        FEE_DENOMINATOR
        = amount * ofee / FEE_DENOMINATOR * FEE_DENOMINATOR +
          amount * pfee / FEE_DENOMINATOR * FEE_DENOMINATOR := by ring
      _ ≤ amount * ofee + amount * pfee := Nat.add_le_add h1 h2
      _ = amount * (ofee + pfee) := by ring
      _ ≤ amount * FEE_DENOMINATOR := Nat.mul_le_mul_left amount hfee
  exact Nat.le_of_mul_le_mul_right hsum hD

/-- C1: for every wrap amount (a `u128` value) and every fee policy with
`ownerFee + platformFee ≤ DENOM`, the fee split of `wrap_internal` succeeds
(no cast overflow, no `u128` subtraction underflow) and yields
`ownerIncrement = ⌊amount * ownerFee / DENOM⌋`,
`platformIncrement = ⌊amount * platformFee / DENOM⌋`,
`callerIncrement = amount - ownerIncrement - platformIncrement`, whose sum is
exactly `amount`, with `ownerIncrement + platformIncrement ≤ amount` (the
subtraction never underflows). -/
theorem C1_wrap_fee_increments (amount : Nat) (fee : FeeReceiver)
    (hamount : amount < 2 ^ 128)
    (hfee : fee.owner_fee + fee.platform_fee ≤ FEE_DENOMINATOR) :
    fee_increments amount fee =
      .ok (amount * fee.owner_fee / FEE_DENOMINATOR,
           amount * fee.platform_fee / FEE_DENOMINATOR,
           amount - amount * fee.owner_fee / FEE_DENOMINATOR
                  - amount * fee.platform_fee / FEE_DENOMINATOR) ∧
    amount * fee.owner_fee / FEE_DENOMINATOR +
      amount * fee.platform_fee / FEE_DENOMINATOR ≤ amount ∧
    amount * fee.owner_fee / FEE_DENOMINATOR +
      amount * fee.platform_fee / FEE_DENOMINATOR +
      (amount - amount * fee.owner_fee / FEE_DENOMINATOR
              - amount * fee.platform_fee / FEE_DENOMINATOR) = amount := by
  have hsum := increments_sum_le amount fee.owner_fee fee.platform_fee hfee
  have hoi : amount * fee.owner_fee / FEE_DENOMINATOR < 2 ^ 128 :=
    lt_of_le_of_lt (le_trans (Nat.le_add_right _ _) hsum) hamount
  have hpi : amount * fee.platform_fee / FEE_DENOMINATOR < 2 ^ 128 :=
    lt_of_le_of_lt (le_trans (Nat.le_add_left _ _) hsum) hamount
  refine ⟨?_, hsum, by omega⟩
  simp only [fee_increments, mul_div_fee, if_pos hoi, if_pos hpi, Except.bind,
    bind, pure]
  rw [if_pos (le_trans (Nat.le_add_right _ _) hsum :
        amount * fee.owner_fee / FEE_DENOMINATOR ≤ amount),
    if_pos (Nat.le_sub_of_add_le (by rwa [Nat.add_comm] at hsum) :
        amount * fee.platform_fee / FEE_DENOMINATOR ≤
          amount - amount * fee.owner_fee / FEE_DENOMINATOR)]

/-- Witness for C1 at the worked example of the spec: amount `250_000_000`,
`ownerFee = 10^13` (1%), `platformFee = 4 * 10^13` (4%). -/
theorem C1_witness :
    (250000000 : Nat) < 2 ^ 128 ∧
    (10000000000000 : Nat) + 40000000000000 ≤ FEE_DENOMINATOR ∧
    (fee_increments 250000000 ⟨10000000000000, 40000000000000, "platform", false⟩ =
      .ok (250000000 * 10000000000000 / FEE_DENOMINATOR,
           250000000 * 40000000000000 / FEE_DENOMINATOR,
           250000000 - 250000000 * 10000000000000 / FEE_DENOMINATOR
                     - 250000000 * 40000000000000 / FEE_DENOMINATOR) ∧
      250000000 * 10000000000000 / FEE_DENOMINATOR +
        250000000 * 40000000000000 / FEE_DENOMINATOR ≤ 250000000 ∧
      250000000 * 10000000000000 / FEE_DENOMINATOR +
        250000000 * 40000000000000 / FEE_DENOMINATOR +
        (250000000 - 250000000 * 10000000000000 / FEE_DENOMINATOR
                   - 250000000 * 40000000000000 / FEE_DENOMINATOR) = 250000000) :=
  ⟨by norm_num, by norm_num [FEE_DENOMINATOR],
   C1_wrap_fee_increments 250000000 ⟨10000000000000, 40000000000000, "platform", false⟩
     (by norm_num) (by norm_num [FEE_DENOMINATOR])⟩

/-! ## Basket construction: behaviour of `checkUnique` and `SetInfo.new` -/

theorem checkUnique_ok : ∀ (l : List TokenWithRatio) (seen : List String),
    (l.map TokenWithRatio.token_id).Nodup → (∀ r ∈ l, r.token_id ∉ seen) →
    checkUnique l seen = .ok l := by
  intro l
  induction l with
  | nil => intro seen _ _; rfl
  | cons r rest ih =>
    intro seen hnd hdisj
    have hr : r.token_id ∉ seen := hdisj r (by simp)
    simp only [List.map_cons, List.nodup_cons] at hnd
    have hdisj' : ∀ r' ∈ rest, r'.token_id ∉ r.token_id :: seen := by
      intro r' hr'
      simp only [List.mem_cons, not_or]
      refine ⟨fun he => hnd.1 ?_, hdisj r' (List.mem_cons_of_mem _ hr')⟩
      exact he ▸ List.mem_map_of_mem TokenWithRatio.token_id hr'
    have hrec := ih (r.token_id :: seen) hnd.2 hdisj'
    simp [checkUnique, hr, hrec]

theorem checkUnique_err : ∀ (l : List TokenWithRatio) (seen : List String),
    (¬(l.map TokenWithRatio.token_id).Nodup ∨ ∃ r ∈ l, r.token_id ∈ seen) →
    checkUnique l seen = .error .duplicateAsset := by
  intro l
  induction l with
  | nil =>
    intro seen h
    rcases h with h | ⟨r, hr, _⟩
    · exact absurd List.nodup_nil h
    · cases hr
  | cons r rest ih =>
    intro seen h
    by_cases hr : r.token_id ∈ seen
    · simp [checkUnique, hr]
    · have hnext : ¬(rest.map TokenWithRatio.token_id).Nodup ∨
          ∃ r' ∈ rest, r'.token_id ∈ r.token_id :: seen := by
        rcases h with h | ⟨r', hr', hseen⟩
        · simp only [List.map_cons, List.nodup_cons, not_and_or] at h
          rcases h with h | h
          · rw [not_not] at h
            obtain ⟨r', hr', he⟩ := List.mem_map.mp h
            exact .inr ⟨r', hr', by simp [he]⟩
          · exact .inl h
        · rcases List.mem_cons.mp hr' with rfl | hmem
          · exact absurd hseen hr
          · exact .inr ⟨r', hmem, List.mem_cons_of_mem _ hseen⟩
      simp [checkUnique, hr, ih _ hnext]

theorem SetInfo_new_empty (fee : FeeReceiver) :
    SetInfo.new [] fee = .error .emptyBasket := rfl

theorem SetInfo_new_dup (l : List TokenWithRatio) (fee : FeeReceiver)
    (hne : l ≠ []) (hdup : ¬(l.map TokenWithRatio.token_id).Nodup) :
    SetInfo.new l fee = .error .duplicateAsset := by
  have hlen : ¬l.length = 0 := by simpa [List.length_eq_zero] using hne
  simp [SetInfo.new, hlen, checkUnique_err l [] (.inl hdup)]

theorem SetInfo_new_feeRange (l : List TokenWithRatio) (fee : FeeReceiver)
    (hne : l ≠ []) (hnd : (l.map TokenWithRatio.token_id).Nodup)
    (hbad : FEE_DENOMINATOR < fee.owner_fee ∨ FEE_DENOMINATOR < fee.platform_fee) :
    SetInfo.new l fee = .error .feeOutOfRange := by
  have hlen : ¬l.length = 0 := by simpa [List.length_eq_zero] using hne
  simp [SetInfo.new, hlen, checkUnique_ok l [] hnd (by simp), hbad]

theorem SetInfo_new_feeSum (l : List TokenWithRatio) (fee : FeeReceiver)
    (hne : l ≠ []) (hnd : (l.map TokenWithRatio.token_id).Nodup)
    (hof : fee.owner_fee ≤ FEE_DENOMINATOR) (hpf : fee.platform_fee ≤ FEE_DENOMINATOR)
    (hsum : FEE_DENOMINATOR < fee.owner_fee + fee.platform_fee) :
    SetInfo.new l fee = .error .feeSumOutOfRange := by
  have hlen : ¬l.length = 0 := by simpa [List.length_eq_zero] using hne
  have hok : ¬(FEE_DENOMINATOR < fee.owner_fee ∨ FEE_DENOMINATOR < fee.platform_fee) := by
    omega
  simp [SetInfo.new, hlen, checkUnique_ok l [] hnd (by simp), hok, hsum]

theorem SetInfo_new_ok (l : List TokenWithRatio) (fee : FeeReceiver)
    (hne : l ≠ []) (hnd : (l.map TokenWithRatio.token_id).Nodup)
    (hof : fee.owner_fee ≤ FEE_DENOMINATOR) (hpf : fee.platform_fee ≤ FEE_DENOMINATOR)
    (hsum : fee.owner_fee + fee.platform_fee ≤ FEE_DENOMINATOR) :
    SetInfo.new l fee = .ok ⟨l, fee⟩ := by
  have hlen : ¬l.length = 0 := by simpa [List.length_eq_zero] using hne
  have hok : ¬(FEE_DENOMINATOR < fee.owner_fee ∨ FEE_DENOMINATOR < fee.platform_fee) := by
    omega
  have hok2 : ¬(FEE_DENOMINATOR < fee.owner_fee + fee.platform_fee) := by omega
  simp [SetInfo.new, hlen, checkUnique_ok l [] hnd (by simp), hok, hok2]

/-- C7: basket construction fails fatally (an `Except` error retains no
state) exactly when the component list is empty, or a token id repeats, or
either fee exceeds `DENOM`, or the fee sum exceeds `DENOM`; otherwise it
succeeds and records the components in order with the supplied fee policy. -/
theorem C7_basket_construction (l : List TokenWithRatio) (fee : FeeReceiver) :
    (l = [] → SetInfo.new l fee = .error .emptyBasket) ∧
    (l ≠ [] → ¬(l.map TokenWithRatio.token_id).Nodup →
      SetInfo.new l fee = .error .duplicateAsset) ∧
    (l ≠ [] → (l.map TokenWithRatio.token_id).Nodup →
      (FEE_DENOMINATOR < fee.owner_fee ∨ FEE_DENOMINATOR < fee.platform_fee) →
      SetInfo.new l fee = .error .feeOutOfRange) ∧
    (l ≠ [] → (l.map TokenWithRatio.token_id).Nodup →
      fee.owner_fee ≤ FEE_DENOMINATOR → fee.platform_fee ≤ FEE_DENOMINATOR →
      FEE_DENOMINATOR < fee.owner_fee + fee.platform_fee →
      SetInfo.new l fee = .error .feeSumOutOfRange) ∧
    (l ≠ [] → (l.map TokenWithRatio.token_id).Nodup →
      fee.owner_fee ≤ FEE_DENOMINATOR → fee.platform_fee ≤ FEE_DENOMINATOR →
      fee.owner_fee + fee.platform_fee ≤ FEE_DENOMINATOR →
      SetInfo.new l fee = .ok ⟨l, fee⟩) :=
  ⟨fun he => he ▸ SetInfo_new_empty fee,
   fun hne hdup => SetInfo_new_dup l fee hne hdup,
   fun hne hnd hbad => SetInfo_new_feeRange l fee hne hnd hbad,
   fun hne hnd hof hpf hsum => SetInfo_new_feeSum l fee hne hnd hof hpf hsum,
   fun hne hnd hof hpf hsum => SetInfo_new_ok l fee hne hnd hof hpf hsum⟩

/-- Witness for C7 at the duplicate-asset test input of the spec
`[("a", 1), ("a", 2)]`: construction aborts with the duplicate-asset error. -/
theorem C7_witness :
    SetInfo.new [⟨"a", 1⟩, ⟨"a", 2⟩] ⟨0, 0, "p", false⟩ = .error .duplicateAsset :=
  (C7_basket_construction [⟨"a", 1⟩, ⟨"a", 2⟩] ⟨0, 0, "p", false⟩).2.1
    (by decide) (by decide)

/-! ## C8: `update_owner_fee` gating and frame -/

/-- C8: `update_owner_fee` fails unless the caller is the contract owner, and
fails unless `fee.updatable` is true; on success it rewrites `fee.owner_fee`
to the new value and changes nothing else (the record-update result keeps
`platform_fee`, `platform_id`, `updatable`, the components, the owner id and
both balance maps), with no re-validation of the fee-sum invariant: every
`new_fee` value, bounded or not, is accepted. -/
theorem C8_update_owner_fee (c : Contract) (caller : String) (new_fee : Nat) :
    (caller ≠ c.owner_id → update_owner_fee c caller new_fee = .error .notOwner) ∧
    (caller = c.owner_id → c.set_info.fee.updatable = false →
      update_owner_fee c caller new_fee = .error .feeNotUpdatable) ∧
    (caller = c.owner_id → c.set_info.fee.updatable = true →
      update_owner_fee c caller new_fee =
        .ok { c with set_info := { c.set_info with fee :=
            { c.set_info.fee with owner_fee := new_fee } } }) := by
  refine ⟨fun hne => ?_, fun he hupd => ?_, fun he hupd => ?_⟩
  · simp [update_owner_fee, hne]
  · simp [update_owner_fee, he, change_owner_fee, hupd]
  · simp [update_owner_fee, he, change_owner_fee, hupd]

/-- A concrete token-set contract used by several witnesses: owner `own`,
platform `plat`, an updatable zero fee, one component `tok` with ratio 1, and
`alice` holding 100 units of `tok`. -/
def c8w : Contract :=
  { owner_id := "own"
    token := fun _ => 0
    internalBalance := fun a t => if a = "alice" ∧ t = "tok" then 100 else 0
    set_info := { ratios := [⟨"tok", 1⟩], fee := ⟨0, 0, "plat", true⟩ } }

/-- Witness for C8: the owner raises the owner fee to `DENOM + 1`, which
violates the fee-sum invariant yet is accepted. -/
theorem C8_witness :
    update_owner_fee c8w "own" (FEE_DENOMINATOR + 1) =
      .ok { c8w with set_info := { c8w.set_info with fee :=
          { c8w.set_info.fee with owner_fee := FEE_DENOMINATOR + 1 } } } :=
  (C8_update_owner_fee c8w "own" (FEE_DENOMINATOR + 1)).2.2 rfl rfl

/-! ## C10: a zero ratio is accepted at construction and makes `wrap` panic -/

theorem get_max_amount_loop_zero (bal : String → Nat) :
    ∀ (L : List TokenWithRatio) (m : Nat), (∃ r ∈ L, r.ratio = 0) →
    get_max_amount_loop bal L m = .error .divisionByZero := by
  intro L
  induction L with
  | nil => intro m h; simp at h
  | cons r rest ih =>
    intro m h
    by_cases hr : r.ratio = 0
    · simp [get_max_amount_loop, hr]
    · rcases h with ⟨r', hmem, hz⟩
      rcases List.mem_cons.mp hmem with rfl | hmem'
      · exact absurd hz hr
      · simp [get_max_amount_loop, hr, ih _ ⟨r', hmem', hz⟩]

/-- C10: `SetInfo::new` accepts a component with ratio 0 (no validation
rejects it), and for every contract whose basket contains a zero-ratio
component, every `wrap` call aborts with the division-by-zero panic raised
while computing the maximum wrappable amount, whatever the caller, owner,
balances or requested amount. -/
theorem C10_zero_ratio_wrap_panics (tid : String) (fee : FeeReceiver)
    (c : Contract) (caller owner : String) (amount : Option Nat)
    (hof : fee.owner_fee ≤ FEE_DENOMINATOR) (hpf : fee.platform_fee ≤ FEE_DENOMINATOR)
    (hsum : fee.owner_fee + fee.platform_fee ≤ FEE_DENOMINATOR)
    (hzero : ∃ r ∈ c.set_info.ratios, r.ratio = 0) :
    SetInfo.new [⟨tid, 0⟩] fee = .ok ⟨[⟨tid, 0⟩], fee⟩ ∧
    wrap_internal c caller owner amount = .error .divisionByZero := by
  constructor
  · exact SetInfo_new_ok [⟨tid, 0⟩] fee (by simp) (by simp) hof hpf hsum
  · have hmax : get_max_amount c caller = .error .divisionByZero :=
      get_max_amount_loop_zero _ _ _ hzero
    simp [wrap_internal, hmax]

/-- A token-set contract whose single component has ratio 0. -/
def c10w : Contract :=
  { owner_id := "own"
    token := fun _ => 0
    internalBalance := fun a t => if a = "alice" ∧ t = "tok" then 100 else 0
    set_info := { ratios := [⟨"tok", 0⟩], fee := ⟨0, 0, "plat", false⟩ } }

/-- Witness for C10: the zero-ratio basket is constructible, and a concrete
wrap of 5 by `alice` (who holds 100 of the component) aborts with the
division-by-zero panic. -/
theorem C10_witness :
    SetInfo.new [⟨"tok", 0⟩] ⟨0, 0, "plat", false⟩ =
      .ok ⟨[⟨"tok", 0⟩], ⟨0, 0, "plat", false⟩⟩ ∧
    wrap_internal c10w "alice" "own" (some 5) = .error .divisionByZero :=
  C10_zero_ratio_wrap_panics "tok" ⟨0, 0, "plat", false⟩ c10w "alice" "own" (some 5)
    (by decide) (by decide) (by decide) (by decide)

/-! ## C3: `maxWrappable` is the minimum component quotient and gates `wrap` -/

theorem subtract_balance_err (c : Contract) (x t : String) (amt : Nat) (e : TokenSetErr)
    (h : subtract_balance c x t amt = .error e) : e = .insufficientInternalBalance := by
  unfold subtract_balance at h
  split at h
  · cases h
  · cases h; rfl

theorem decrease_loop_err (caller : String) (a : Nat) :
    ∀ (L : List TokenWithRatio) (c : Contract) (e : TokenSetErr),
    decrease_potentials_loop caller a L c = .error e → e = .insufficientInternalBalance := by
  intro L
  induction L with
  | nil => intro c e h; cases h
  | cons r rest ih =>
    intro c e h
    simp only [decrease_potentials_loop] at h
    cases hsb : subtract_balance c caller r.token_id (r.ratio * a) with
    | error e' =>
      rw [hsb] at h
      cases h
      exact subtract_balance_err _ _ _ _ _ hsb
    | ok c' =>
      rw [hsb] at h
      exact ih c' e h

theorem decrease_potentials_err (c : Contract) (a : Nat) (account_id : String)
    (e : TokenSetErr) (h : decrease_potentials c a account_id = .error e) :
    e = .insufficientInternalBalance :=
  decrease_loop_err account_id a c.set_info.ratios c e h

theorem mul_div_fee_err (a f : Nat) (e : TokenSetErr)
    (h : mul_div_fee a f = .error e) : e = .castOverflow := by
  simp only [mul_div_fee] at h
  split at h
  · cases h
  · cases h; rfl

theorem fee_increments_err (a : Nat) (fee : FeeReceiver) (e : TokenSetErr)
    (h : fee_increments a fee = .error e) :
    e = .castOverflow ∨ e = .subtractionUnderflow := by
  unfold fee_increments at h
  cases h1 : mul_div_fee a fee.owner_fee with
  | error e1 =>
    simp only [h1] at h
    cases h
    exact .inl (mul_div_fee_err _ _ _ h1)
  | ok oi =>
    simp only [h1] at h
    cases h2 : mul_div_fee a fee.platform_fee with
    | error e2 =>
      simp only [h2] at h
      cases h
      exact .inl (mul_div_fee_err _ _ _ h2)
    | ok pi =>
      simp only [h2] at h
      split at h
      · split at h
        · cases h
        · cases h; exact .inr rfl
      · cases h; exact .inr rfl

/-- The running-minimum loop of `get_max_amount`, with all ratios nonzero,
returns a value that is below the start value and every component quotient,
and is the start value or one of the quotients. -/
theorem get_max_amount_loop_ok (bal : String → Nat) :
    ∀ (L : List TokenWithRatio) (m0 : Nat), (∀ r ∈ L, r.ratio ≠ 0) →
    ∃ m, get_max_amount_loop bal L m0 = .ok m ∧ m ≤ m0 ∧
      (m = m0 ∨ ∃ r ∈ L, m = bal r.token_id / r.ratio) ∧
      (∀ r ∈ L, m ≤ bal r.token_id / r.ratio) := by
  intro L
  induction L with
  | nil => intro m0 _; exact ⟨m0, rfl, le_refl _, .inl rfl, by simp⟩
  | cons r rest ih =>
    intro m0 hnz
    have hr : r.ratio ≠ 0 := hnz r (by simp)
    obtain ⟨m, hloop, hle, hattain, hbound⟩ :=
      ih (if bal r.token_id / r.ratio < m0 then bal r.token_id / r.ratio else m0)
        (fun r' h' => hnz r' (List.mem_cons_of_mem _ h'))
    have hmin : (if bal r.token_id / r.ratio < m0 then bal r.token_id / r.ratio else m0) ≤
        bal r.token_id / r.ratio := by split <;> omega
    have hm0 : (if bal r.token_id / r.ratio < m0 then bal r.token_id / r.ratio else m0) ≤ m0 := by
      split <;> omega
    refine ⟨m, ?_, le_trans hle hm0, ?_, ?_⟩
    · simpa [get_max_amount_loop, hr] using hloop
    · rcases hattain with he | ⟨r', hr', he⟩
      · by_cases hq : bal r.token_id / r.ratio < m0
        · exact .inr ⟨r, by simp, by simpa [hq] using he⟩
        · exact .inl (by simpa [hq] using he)
      · exact .inr ⟨r', List.mem_cons_of_mem _ hr', he⟩
    · intro r' hmem
      rcases List.mem_cons.mp hmem with rfl | hmem'
      · exact le_trans hle hmin
      · exact hbound r' hmem'

/-- After a successful `get_max_amount` and with the requested amount within
the bound, `wrap_internal` returns the (defaulted) requested amount when it
succeeds, and any abort it still raises is a fee-cast overflow, a fee
subtraction underflow, or a component-ledger underflow — never the
insufficient-basket-balance panic. -/
theorem wrap_internal_cases (c : Contract) (caller owner : String) (amount : Option Nat)
    (m : Nat) (hmax : get_max_amount c caller = .ok m) (hle : amount.getD m ≤ m) :
    (∀ c' ret, wrap_internal c caller owner amount = .ok (c', ret) → ret = amount.getD m) ∧
    (∀ e, wrap_internal c caller owner amount = .error e →
      e = .castOverflow ∨ e = .subtractionUnderflow ∨ e = .insufficientInternalBalance) := by
  have hnlt : ¬ m < amount.getD m := not_lt.mpr hle
  constructor
  · intro c' ret h
    simp only [wrap_internal, hmax, if_neg hnlt] at h
    cases hfi : fee_increments (amount.getD m) c.set_info.fee with
    | error e => simp only [hfi] at h; cases h
    | ok t =>
      obtain ⟨oi, pi, ci⟩ := t
      simp only [hfi] at h
      split at h
      · cases h
      · cases h; rfl
  · intro e h
    simp only [wrap_internal, hmax, if_neg hnlt] at h
    cases hfi : fee_increments (amount.getD m) c.set_info.fee with
    | error e' =>
      simp only [hfi] at h
      cases h
      rcases fee_increments_err _ _ _ hfi with h' | h'
      · exact .inl h'
      · exact .inr (.inl h')
    | ok t =>
      obtain ⟨oi, pi, ci⟩ := t
      simp only [hfi] at h
      split at h
      · cases h
        rename_i heq
        exact .inr (.inr (decrease_potentials_err _ _ _ _ heq))
      · cases h

/-- C3: for every caller and every basket (nonempty, nonzero ratios, `u128`
balances), `get_max_amount` returns the minimum over all components of
`⌊ledgerBalance / ratio⌋`; a `wrap` with the amount absent wraps exactly that
maximum (and never raises the insufficient-basket-balance panic); and a `wrap`
of a requested amount raises the insufficient-basket-balance panic if and only
if the request exceeds the maximum. -/
theorem C3_max_wrappable (c : Contract) (caller owner : String)
    (hnz : ∀ r ∈ c.set_info.ratios, r.ratio ≠ 0)
    (hne : c.set_info.ratios ≠ [])
    (hbal : ∀ r ∈ c.set_info.ratios, get_ft_balance_internal c caller r.token_id < 2 ^ 128) :
    ∃ m, get_max_amount c caller = .ok m ∧
      (∀ r ∈ c.set_info.ratios, m ≤ get_ft_balance_internal c caller r.token_id / r.ratio) ∧
      (∃ r ∈ c.set_info.ratios, m = get_ft_balance_internal c caller r.token_id / r.ratio) ∧
      (∀ c' ret, wrap_internal c caller owner none = .ok (c', ret) → ret = m) ∧
      wrap_internal c caller owner none ≠ .error .insufficientBasketBalance ∧
      (∀ a, wrap_internal c caller owner (some a) = .error .insufficientBasketBalance ↔
        m < a) := by
  obtain ⟨m, hloop, hle, hattain, hbound⟩ :=
    get_max_amount_loop_ok (fun t => get_ft_balance_internal c caller t)
      c.set_info.ratios U128_MAX hnz
  have hmax : get_max_amount c caller = .ok m := hloop
  have hattain' : ∃ r ∈ c.set_info.ratios,
      m = get_ft_balance_internal c caller r.token_id / r.ratio := by
    rcases hattain with he | h
    · obtain ⟨r0, hr0⟩ := List.exists_mem_of_ne_nil _ hne
      have h1 : m ≤ get_ft_balance_internal c caller r0.token_id / r0.ratio := hbound r0 hr0
      have h2 : get_ft_balance_internal c caller r0.token_id / r0.ratio ≤ U128_MAX := by
        have hq : get_ft_balance_internal c caller r0.token_id / r0.ratio ≤
            get_ft_balance_internal c caller r0.token_id := Nat.div_le_self _ _
        have hb := hbal r0 hr0
        simp only [U128_MAX]
        omega
      exact ⟨r0, hr0, le_antisymm h1 (he ▸ h2)⟩
    · exact h
  refine ⟨m, hmax, hbound, hattain', ?_, ?_, ?_⟩
  · exact (wrap_internal_cases c caller owner none m hmax (by simp)).1
  · intro h
    rcases (wrap_internal_cases c caller owner none m hmax (by simp)).2 _ h with h' | h' | h' <;>
      cases h'
  · intro a
    constructor
    · intro h
      by_contra hna
      have hle' : (some a).getD m ≤ m := by simpa using not_lt.mp hna
      rcases (wrap_internal_cases c caller owner (some a) m hmax hle').2 _ h with h' | h' | h' <;>
        cases h'
    · intro hlt
      simp [wrap_internal, hmax, hlt]

/-- A concrete contract for the C3 witness: the end-to-end scenario of the spec
(two assets with ratios 1 and 2, zero fees, `alice` holding 1000 of each, so
the maximum wrappable amount is `min(1000/1, 1000/2) = 500`). -/
def c3w : Contract :=
  { owner_id := "own"
    token := fun _ => 0
    internalBalance := fun a t =>
      if a = "alice" ∧ t = "a0" then 1000 else if a = "alice" ∧ t = "a1" then 1000 else 0
    set_info := { ratios := [⟨"a0", 1⟩, ⟨"a1", 2⟩], fee := ⟨0, 0, "plat", false⟩ } }

/-- Witness for C3 at the two-asset scenario of the spec. -/
theorem C3_witness :
    ∃ m, get_max_amount c3w "alice" = .ok m ∧
      (∀ r ∈ c3w.set_info.ratios,
        m ≤ get_ft_balance_internal c3w "alice" r.token_id / r.ratio) ∧
      (∃ r ∈ c3w.set_info.ratios,
        m = get_ft_balance_internal c3w "alice" r.token_id / r.ratio) ∧
      (∀ c' ret, wrap_internal c3w "alice" "own" none = .ok (c', ret) → ret = m) ∧
      wrap_internal c3w "alice" "own" none ≠ .error .insufficientBasketBalance ∧
      (∀ a, wrap_internal c3w "alice" "own" (some a) = .error .insufficientBasketBalance ↔
        m < a) :=
  C3_max_wrappable c3w "alice" "own" (by decide) (by decide) (by decide)

/-! ## C4: the component debits of `decrease_potentials` never underflow -/

theorem decrease_loop_ok (caller : String) (a : Nat) :
    ∀ (L : List TokenWithRatio) (c : Contract),
    (L.map TokenWithRatio.token_id).Nodup →
    (∀ r ∈ L, r.ratio * a ≤ c.internalBalance caller r.token_id) →
    ∃ c', decrease_potentials_loop caller a L c = .ok c' := by
  intro L
  induction L with
  | nil => intro c _ _; exact ⟨c, rfl⟩
  | cons r rest ih =>
    intro c hnd hle
    simp only [List.map_cons, List.nodup_cons] at hnd
    have hr := hle r (by simp)
    have hsb : subtract_balance c caller r.token_id (r.ratio * a) =
        .ok { c with internalBalance := fun x t =>
            if x = caller ∧ t = r.token_id then c.internalBalance x t - r.ratio * a
            else c.internalBalance x t } := by
      simp [subtract_balance, hr]
    have hle' : ∀ r' ∈ rest, r'.ratio * a ≤
        ({ c with internalBalance := fun x t =>
            if x = caller ∧ t = r.token_id then c.internalBalance x t - r.ratio * a
            else c.internalBalance x t } : Contract).internalBalance caller r'.token_id := by
      intro r' hr'
      have hne : r'.token_id ≠ r.token_id := fun he =>
        hnd.1 (he ▸ List.mem_map_of_mem _ hr')
      simpa [hne] using hle r' (List.mem_cons_of_mem _ hr')
    obtain ⟨c', hc'⟩ := ih _ hnd.2 hle'
    exact ⟨c', by simp only [decrease_potentials_loop, hsb]; exact hc'⟩

/-- C4: for every caller, every basket with unique components and nonzero
ratios, and every amount below the maximum computed by `get_max_amount` from
the live balances of the caller, each per-component debit `ratio * amount` is
bounded by the component ledger balance and `decrease_potentials` succeeds —
no component subtraction underflows. -/
theorem C4_decrease_never_underflows (c : Contract) (caller : String) (a m : Nat)
    (hnodup : (c.set_info.ratios.map TokenWithRatio.token_id).Nodup)
    (hnz : ∀ r ∈ c.set_info.ratios, r.ratio ≠ 0)
    (hmax : get_max_amount c caller = .ok m)
    (ha : a ≤ m) :
    (∀ r ∈ c.set_info.ratios,
      r.ratio * a ≤ get_ft_balance_internal c caller r.token_id) ∧
    ∃ c', decrease_potentials c a caller = .ok c' := by
  obtain ⟨m', hloop, _, _, hbound⟩ :=
    get_max_amount_loop_ok (fun t => get_ft_balance_internal c caller t)
      c.set_info.ratios U128_MAX hnz
  unfold get_max_amount at hmax
  rw [hloop] at hmax
  injection hmax with hm
  subst hm
  have hcomp : ∀ r ∈ c.set_info.ratios,
      r.ratio * a ≤ get_ft_balance_internal c caller r.token_id := by
    intro r hr
    have h1 : a ≤ get_ft_balance_internal c caller r.token_id / r.ratio :=
      le_trans ha (hbound r hr)
    have h2 : 0 < r.ratio := Nat.pos_of_ne_zero (hnz r hr)
    have h3 := (Nat.le_div_iff_mul_le h2).mp h1
    rwa [Nat.mul_comm] at h3
  exact ⟨hcomp, decrease_loop_ok caller a c.set_info.ratios c hnodup hcomp⟩

/-- Witness for C4 on the two-asset scenario contract: wrapping 300 of a
maximum 500 debits `1 * 300 ≤ 1000` and `2 * 300 ≤ 1000` without underflow. -/
theorem C4_witness :
    (∀ r ∈ c3w.set_info.ratios,
      r.ratio * 300 ≤ get_ft_balance_internal c3w "alice" r.token_id) ∧
    ∃ c', decrease_potentials c3w 300 "alice" = .ok c' :=
  C4_decrease_never_underflows c3w "alice" 300 500 (by decide) (by decide)
    rfl (by decide)

/-! ## C2: wrap-then-unwrap round trip -/

/-- Total ratio with which asset `tok` occurs in the component list (the
ratio of its unique occurrence for a constructor-valid basket). -/
def ratio_weight (L : List TokenWithRatio) (tok : String) : Nat :=
  (L.map (fun r => if r.token_id = tok then r.ratio else 0)).sum

theorem internal_deposit_apply (bal : String → Nat) (account x : String) (amount : Nat) :
    internal_deposit bal account amount x =
      bal x + (if x = account then amount else 0) := by
  simp only [internal_deposit]
  split <;> simp

/-- A successful `decrease_potentials` loop debits exactly
`amount * ratio_weight` from the balance the account holds in every asset and touches
nothing else. -/
theorem decrease_loop_balances (caller : String) (a : Nat) :
    ∀ (L : List TokenWithRatio) (c c' : Contract),
    decrease_potentials_loop caller a L c = .ok c' →
    (∀ tok, c'.internalBalance caller tok + a * ratio_weight L tok =
      c.internalBalance caller tok) ∧
    c'.token = c.token ∧ c'.set_info = c.set_info ∧ c'.owner_id = c.owner_id := by
  intro L
  induction L with
  | nil =>
    intro c c' h
    cases h
    exact ⟨fun tok => by simp [ratio_weight], rfl, rfl, rfl⟩
  | cons r rest ih =>
    intro c c' h
    simp only [decrease_potentials_loop] at h
    cases hsb : subtract_balance c caller r.token_id (r.ratio * a) with
    | error e => rw [hsb] at h; cases h
    | ok c₁ =>
      rw [hsb] at h
      obtain ⟨hbal, htok, hsi, hoid⟩ := ih c₁ c' h
      simp only [subtract_balance] at hsb
      split at hsb
      · rename_i hguard
        cases hsb
        refine ⟨?_, htok, hsi, hoid⟩
        intro tok
        have hb := hbal tok
        dsimp only at hb
        simp only [ratio_weight, List.map_cons, List.sum_cons] at hb ⊢
        by_cases htokeq : tok = r.token_id
        · rw [if_pos htokeq.symm]
          rw [← htokeq] at hguard
          have hdist : a * (r.ratio +
              (rest.map fun x => if x.token_id = tok then x.ratio else 0).sum) =
              r.ratio * a +
              a * (rest.map fun x => if x.token_id = tok then x.ratio else 0).sum := by ring
          split at hb
          · omega
          · rename_i hcond
            simp at hcond
            exact absurd htokeq hcond
        · rw [if_neg (fun hc => htokeq hc.symm : ¬r.token_id = tok), Nat.zero_add]
          split at hb
          · rename_i hcond
            simp at hcond
            exact absurd hcond htokeq
          · omega
      · cases hsb

theorem decrease_potentials_balances (c c' : Contract) (a : Nat) (account_id : String)
    (h : decrease_potentials c a account_id = .ok c') :
    (∀ tok, c'.internalBalance account_id tok +
        a * ratio_weight c.set_info.ratios tok = c.internalBalance account_id tok) ∧
    c'.token = c.token ∧ c'.set_info = c.set_info ∧ c'.owner_id = c.owner_id :=
  decrease_loop_balances account_id a c.set_info.ratios c c' h

/-- The `on_burn` loop credits exactly `amount * ratio_weight` of every asset
to the account and touches nothing else. -/
theorem on_burn_loop_balances (caller : String) (a : Nat) :
    ∀ (L : List TokenWithRatio) (c : Contract),
    (∀ x tok, (on_burn_loop caller a L c).internalBalance x tok =
      c.internalBalance x tok + (if x = caller then a * ratio_weight L tok else 0)) ∧
    (on_burn_loop caller a L c).token = c.token ∧
    (on_burn_loop caller a L c).set_info = c.set_info ∧
    (on_burn_loop caller a L c).owner_id = c.owner_id := by
  intro L
  induction L with
  | nil =>
    intro c
    exact ⟨fun x tok => by simp [on_burn_loop, ratio_weight], rfl, rfl, rfl⟩
  | cons r rest ih =>
    intro c
    obtain ⟨hbal, htok, hsi, hoid⟩ := ih (increase_balance c caller r.token_id (r.ratio * a))
    refine ⟨?_, htok, hsi, hoid⟩
    intro x tok
    have hb := hbal x tok
    simp only [on_burn_loop]
    rw [hb]
    simp only [increase_balance, ratio_weight, List.map_cons, List.sum_cons]
    by_cases hx : x = caller
    · rw [if_pos hx, if_pos hx]
      by_cases htokeq : tok = r.token_id
      · rw [if_pos (⟨hx, htokeq⟩ : x = caller ∧ tok = r.token_id), if_pos htokeq.symm]
        ring
      · rw [if_neg (fun hc => htokeq hc.2 : ¬(x = caller ∧ tok = r.token_id)),
          if_neg (fun hc => htokeq hc.symm : ¬r.token_id = tok)]
        ring
    · rw [if_neg (fun hc => hx hc.1 : ¬(x = caller ∧ tok = r.token_id)),
        if_neg hx, if_neg hx]

theorem fee_increments_ok_sum (a : Nat) (fee : FeeReceiver) (oi pi ci : Nat)
    (h : fee_increments a fee = .ok (oi, pi, ci)) : oi + pi + ci = a ∧ ci ≤ a := by
  unfold fee_increments at h
  cases h1 : mul_div_fee a fee.owner_fee with
  | error e1 => simp only [h1] at h; cases h
  | ok oi' =>
    simp only [h1] at h
    cases h2 : mul_div_fee a fee.platform_fee with
    | error e2 => simp only [h2] at h; cases h
    | ok pi' =>
      simp only [h2] at h
      split at h
      · split at h
        · rename_i hg1 hg2
          cases h
          omega
        · cases h
      · cases h

theorem fee_increments_zero (a : Nat) (fee : FeeReceiver)
    (hof : fee.owner_fee = 0) (hpf : fee.platform_fee = 0) :
    fee_increments a fee = .ok (0, 0, a) := by
  simp [fee_increments, mul_div_fee, hof, hpf, Nat.pos_pow_of_pos]

/-- C2 (amended): for every state, caller, and amount the wrap accepts, the
round trip of wrapping `a` and unwrapping the resulting caller share `ci`
succeeds and leaves every per-asset balance of the caller at a value at most
its pre-wrap balance; the balances are restored exactly whenever both fees
are zero; the unwrap itself charges no fee — it debits exactly `ci`
derivative units and credits `ci * ratio` of every component. (Balances are
natural numbers throughout, so none goes negative.) -/
theorem C2_wrap_unwrap_round_trip (c : Contract) (caller : String) (a : Nat)
    (c₁ : Contract) (ret oi pi ci : Nat)
    (hwrap : wrap_internal c caller c.owner_id (some a) = .ok (c₁, ret))
    (hinc : fee_increments a c.set_info.fee = .ok (oi, pi, ci)) :
    ∃ c₂, unwrap_token c₁ caller ci = .ok c₂ ∧
      (∀ tok, c₂.internalBalance caller tok ≤ c.internalBalance caller tok) ∧
      ((c.set_info.fee.owner_fee = 0 ∧ c.set_info.fee.platform_fee = 0) →
        ∀ tok, c₂.internalBalance caller tok = c.internalBalance caller tok) ∧
      c₂.token caller + ci = c₁.token caller ∧
      (∀ tok, c₂.internalBalance caller tok =
        c₁.internalBalance caller tok + ci * ratio_weight c.set_info.ratios tok) := by
  unfold wrap_internal at hwrap
  cases hmax : get_max_amount c caller with
  | error e => simp only [hmax] at hwrap; cases hwrap
  | ok m =>
    simp only [hmax, Option.getD_some] at hwrap
    by_cases hlt : m < a
    · rw [if_pos hlt] at hwrap; cases hwrap
    · rw [if_neg hlt] at hwrap
      simp only [hinc] at hwrap
      split at hwrap
      · cases hwrap
      · rename_i heq
        cases hwrap
        -- heq : decrease_potentials (deposit state) a caller = .ok c₁, ret := a
        obtain ⟨hbal, htok, hsi, _⟩ := decrease_potentials_balances _ c₁ a caller heq
        dsimp only at hbal htok hsi
        -- the derivative balance of the caller after the three deposits is at least ci
        have htokc : ci ≤ c₁.token caller := by
          rw [htok]
          rw [internal_deposit_apply, internal_deposit_apply, internal_deposit_apply]
          rw [if_pos (rfl : caller = caller)]
          split <;> split <;> omega
        have hwd : internal_withdraw c₁.token caller ci =
            .ok (fun x => if x = caller then c₁.token x - ci else c₁.token x) := by
          simp [internal_withdraw, htokc]
        obtain ⟨hbal2, htok2, _, _⟩ :=
          on_burn_loop_balances caller ci
            ({ c₁ with token := fun x => if x = caller then c₁.token x - ci else c₁.token x }
              : Contract).set_info.ratios
            { c₁ with token := fun x => if x = caller then c₁.token x - ci else c₁.token x }
        dsimp only at hbal2 htok2
        have hci : ci ≤ a := (fee_increments_ok_sum a c.set_info.fee oi pi ci hinc).2
        have hW : ∀ tok, ratio_weight c₁.set_info.ratios tok =
            ratio_weight c.set_info.ratios tok := fun tok => by rw [hsi]
        refine ⟨on_burn
            { c₁ with token := fun x => if x = caller then c₁.token x - ci else c₁.token x }
            caller ci, ?_, ?_, ?_, ?_, ?_⟩
        · simp only [unwrap_token, hwd]
        · intro tok
          simp only [on_burn]
          have h1 := hbal2 caller tok
          rw [if_pos (rfl : caller = caller), hW tok] at h1
          have h2 := hbal tok
          have hmul : ci * ratio_weight c.set_info.ratios tok ≤
              a * ratio_weight c.set_info.ratios tok :=
            Nat.mul_le_mul_right _ hci
          omega
        · intro hz tok
          simp only [on_burn]
          have h1 := hbal2 caller tok
          rw [if_pos (rfl : caller = caller), hW tok] at h1
          have h2 := hbal tok
          have hz' := fee_increments_zero a c.set_info.fee hz.1 hz.2
          rw [hinc] at hz'
          injection hz' with hz''
          have hcia : ci = a := by
            have h3 := congrArg (fun p : Nat × Nat × Nat => p.2.2) hz''
            simpa using h3
          subst hcia
          omega
        · simp only [on_burn]
          rw [htok2]
          dsimp only
          rw [if_pos (rfl : caller = caller)]
          omega
        · intro tok
          simp only [on_burn]
          have h1 := hbal2 caller tok
          rw [if_pos (rfl : caller = caller), hW tok] at h1
          exact h1

/-- The wrap result used by the C2 witness: `alice` wraps 5 on the zero-fee
two-asset contract. -/
def c2res : Contract × Nat :=
  (wrap_internal c3w "alice" c3w.owner_id (some 5)).toOption.getD (c3w, 0)

/-- Witness for C2: wrapping 5 (caller share 5, zero fees) and unwrapping 5
restores the component balances of `alice` exactly. -/
theorem C2_witness :
    ∃ c₂, unwrap_token c2res.1 "alice" 5 = .ok c₂ ∧
      (∀ tok, c₂.internalBalance "alice" tok ≤ c3w.internalBalance "alice" tok) ∧
      ((c3w.set_info.fee.owner_fee = 0 ∧ c3w.set_info.fee.platform_fee = 0) →
        ∀ tok, c₂.internalBalance "alice" tok = c3w.internalBalance "alice" tok) ∧
      c₂.token "alice" + 5 = c2res.1.token "alice" ∧
      (∀ tok, c₂.internalBalance "alice" tok =
        c2res.1.internalBalance "alice" tok + 5 * ratio_weight c3w.set_info.ratios tok) :=
  C2_wrap_unwrap_round_trip c3w "alice" 5 c2res.1 c2res.2 0 0 5 rfl rfl

/-- A one-component basket with a tiny nonzero owner fee: wrapping 1 floors
the fee increments to zero. -/
def c2cex : Contract :=
  { owner_id := "own"
    token := fun _ => 0
    internalBalance := fun a t => if a = "alice" ∧ t = "tok" then 1 else 0
    set_info := { ratios := [⟨"tok", 1⟩], fee := ⟨1, 0, "plat", false⟩ } }

/-- The post-wrap state of the C2 counterexample. -/
def c2cexMid : Contract :=
  ((wrap_internal c2cex "alice" c2cex.owner_id (some 1)).toOption.getD (c2cex, 0)).1

/-- The post-round-trip state of the C2 counterexample. -/
def c2cexFinal : Contract := (unwrap_token c2cexMid "alice" 1).toOption.getD c2cex

/-- Counterexample to C2 as stated: with `ownerFee = 1` (nonzero) and wrap
amount 1 — an amount the wrap accepts — both fee increments floor to 0, the
caller share is 1, and the round trip restores the component balance of
`alice` exactly; so equality of every component balance does *not* imply that
both fees are zero. -/
theorem C2_counterexample :
    fee_increments 1 c2cex.set_info.fee = .ok (0, 0, 1) ∧
    (wrap_internal c2cex "alice" c2cex.owner_id (some 1)).toOption.isSome = true ∧
    (unwrap_token c2cexMid "alice" 1).toOption.isSome = true ∧
    c2cexFinal.internalBalance "alice" "tok" = c2cex.internalBalance "alice" "tok" ∧
    c2cex.set_info.fee.owner_fee ≠ 0 :=
  ⟨rfl, rfl, rfl, rfl, by decide⟩

/-! ## C9: the public `wrap` discards the computed gross amount -/

/-- Evaluation of the C9 failing input: on a one-component zero-fee basket
where `alice` holds 100 of `tok`, `wrap_internal` computes and returns the
gross amount 50, and the public `wrap` succeeds — but its embedding (like the
Rust method, whose return type is the unit type) yields only the new state,
so nothing is returned to the caller. -/
theorem C9_public_wrap_discards_amount :
    (wrap_internal c8w "alice" c8w.owner_id (some 50)).map Prod.snd = .ok 50 ∧
    (Contract.wrap c8w "alice" (some 50)).toOption.isSome = true ∧
    Contract.wrap c8w "alice" (some 50) =
      (wrap_internal c8w "alice" c8w.owner_id (some 50)).map Prod.fst :=
  ⟨rfl, rfl, rfl⟩

/-! ## Deploy saga (src/deployer-contract/src/lib.rs) -/

/-- The per-account record of the deploy saga: the `AccountInfo` of the deployer contract
which holds `deployed_contracts` (a `near_sdk` `Vector`, embedded as a
list in push order); `near_amount` and `near_used_for_storage` are the
enclosing `near_account::Account` fields. Modelled from the spec: the
Provisioning Ledger entry — `escrowed` (`near_used_for_storage`) plus the
pending-instance collection — with `near_amount` the total deposit of the account
backing the available balance. -/
structure DeployerAccount where
  near_amount : Nat
  near_used_for_storage : Nat
  deployed_contracts : List String
  deriving DecidableEq, Repr

/-- Aborts of the deployer contract (Rust panics, reverting the call). -/
inductive DeployErr where
  | accountNotRegistered
  | insufficientEscrow
  | escrowUnderflow
  deriving DecidableEq, Repr

/-- The deployer contract state (src/deployer-contract/src/lib.rs
`Contract`): the per-instance deposit and the account map. -/
structure DeployerContract where
  deposit_for_contract : Nat
  accounts : String → Option DeployerAccount

/-- Modelled from the spec: `get_available_near` of the external
`near_account` collaborator — the available (unescrowed) balance of the caller. -/
def get_available_near (a : DeployerAccount) : Nat :=
  a.near_amount - a.near_used_for_storage

/-- The new instance id of `deploy_contract_code`:
`format!("{}.{}", contract_account_prefix, env::current_account_id())` — the
supplied name part joined to the account id of the deployer contract itself. -/
def derived_instance_id (account_pfx current_account_id : String) : String :=
  account_pfx ++ "." ++ current_account_id

/-- Embedding of `deploy_contract_code` (src/deployer-contract/src/lib.rs lines 82-164):
look up the account record of the caller (panicking if unregistered), require the
available balance to cover `deposit_for_contract`, then escrow the deposit
and append the new instance id — synchronously, before the promise chain
resolves. `account_pfx` embeds `contract_account_prefix` and
`current_account_id` embeds `env::current_account_id()`. -/
def deploy_contract_code (c : DeployerContract)
    (caller account_pfx current_account_id : String) :
    Except DeployErr DeployerContract :=
  let account_id := derived_instance_id account_pfx current_account_id
  match c.accounts caller with
  | none => .error .accountNotRegistered
  | some account =>
    if get_available_near account < c.deposit_for_contract then .error .insufficientEscrow
    else
      .ok { c with accounts := fun x =>
        if x = caller then some ({ account with
            near_used_for_storage := account.near_used_for_storage + c.deposit_for_contract,
            deployed_contracts := account.deployed_contracts ++ [account_id] })
        else c.accounts x }

/-- The value-lookup of `resolve_contract_deploy`:
`deployed_contracts.iter().enumerate().find(|(i, contr)| contr == &contract_id)`,
returning the index of the first occurrence, scanning from index `s`. -/
def find_index_from (contract_id : String) : List String → Nat → Option Nat
  | [], _ => none
  | x :: rest, i => if x = contract_id then some i else find_index_from contract_id rest (i + 1)

/-- Embedding of the `near_sdk` method `Vector::swap_remove(index)`: pop the last element and, unless
the removed index was the last, overwrite the removed slot with it. -/
def swap_remove (l : List String) (i : Nat) : List String :=
  match l.getLast? with
  | none => l
  | some z => if i + 1 = l.length then l.dropLast else l.dropLast.set i z

/-- Embedding of `resolve_contract_deploy` (src/deployer-contract/src/lib.rs lines
166-206): on chain success, no mutation. On failure, if the account record of the caller
still exists, refund the escrow on a local copy and look up the instance id;
when found, persist the swap-removed list together with the refund, and when
not found only log — the local refund is never written back, so the state is
unchanged. If the account is gone, only log. The `u128` refund subtraction is
checked, embedded as the `escrowUnderflow` error. -/
def resolve_contract_deploy (c : DeployerContract) (caller contract_id : String)
    (chain_succeeded : Bool) : Except DeployErr DeployerContract :=
  if chain_succeeded then .ok c
  else
    match c.accounts caller with
    | none => .ok c
    | some account =>
      if c.deposit_for_contract ≤ account.near_used_for_storage then
        let account1 := { account with
          near_used_for_storage := account.near_used_for_storage - c.deposit_for_contract }
        match find_index_from contract_id account1.deployed_contracts 0 with
        | none => .ok c
        | some idx =>
          .ok { c with accounts := fun x =>
            if x = caller then some ({ account1 with
                deployed_contracts := swap_remove account1.deployed_contracts idx })
            else c.accounts x }
      else .error .escrowUnderflow

/-! ## C6: escrow gating and synchronous mutation of `deploy_contract_code` -/

/-- C6 (amended): for a registered caller, `deploy_contract_code` fails with
the insufficient-escrow error — leaving no state change, since an error
reverts the call — exactly when the available balance is below
`deposit_for_contract`; otherwise it debits exactly the deposit into escrow
and appends the instance id derived from the supplied name part and the
account id of the deployer contract itself (not from the caller), leaving all other
accounts untouched, in the state it returns synchronously. -/
theorem C6_deploy_escrow (c : DeployerContract) (caller account_pfx cur : String)
    (acct : DeployerAccount) (hacct : c.accounts caller = some acct) :
    (get_available_near acct < c.deposit_for_contract →
      deploy_contract_code c caller account_pfx cur = .error .insufficientEscrow) ∧
    (c.deposit_for_contract ≤ get_available_near acct →
      deploy_contract_code c caller account_pfx cur =
        .ok { c with accounts := fun x =>
          if x = caller then some ({ acct with
              near_used_for_storage := acct.near_used_for_storage + c.deposit_for_contract,
              deployed_contracts :=
                acct.deployed_contracts ++ [derived_instance_id account_pfx cur] })
          else c.accounts x }) := by
  constructor
  · intro hlt
    simp [deploy_contract_code, hacct, hlt]
  · intro hge
    simp [deploy_contract_code, hacct, not_lt.mpr hge]

/-- A deployer-contract state with two funded accounts `alice` and `bob`
(deposit per instance 10, 20 available each, nothing pending). -/
def c6w : DeployerContract :=
  { deposit_for_contract := 10
    accounts := fun x =>
      if x = "alice" then some ⟨20, 0, []⟩
      else if x = "bob" then some ⟨20, 0, []⟩ else none }

/-- Witness for C6: `alice` deploys with name part `p` on deployer account
`deployer`; the deposit is escrowed and `p.deployer` is appended. -/
theorem C6_witness :
    deploy_contract_code c6w "alice" "p" "deployer" =
      .ok { c6w with accounts := fun x =>
        if x = "alice" then some ({ (⟨20, 0, []⟩ : DeployerAccount) with
            near_used_for_storage :=
              (⟨20, 0, []⟩ : DeployerAccount).near_used_for_storage +
                c6w.deposit_for_contract,
            deployed_contracts :=
              (⟨20, 0, []⟩ : DeployerAccount).deployed_contracts ++
                [derived_instance_id "p" "deployer"] })
        else c6w.accounts x } :=
  (C6_deploy_escrow c6w "alice" "p" "deployer" ⟨20, 0, []⟩ rfl).2 (by decide)

/-- Counterexample to C6 as stated: the instance id is not derived from the
caller — two different callers supplying the same name part to the same
deployer contract record the identical instance id `p.deployer`. -/
theorem C6_counterexample :
    ((deploy_contract_code c6w "alice" "p" "deployer").toOption.map
      (fun c => ((c.accounts "alice").map (fun a => a.deployed_contracts)).getD [])) =
      some ["p.deployer"] ∧
    ((deploy_contract_code c6w "bob" "p" "deployer").toOption.map
      (fun c => ((c.accounts "bob").map (fun a => a.deployed_contracts)).getD [])) =
      some ["p.deployer"] ∧
    "alice" ≠ "bob" :=
  ⟨rfl, rfl, by decide⟩

/-! ## C5: compensation in `resolve_contract_deploy` -/

theorem count_set_eq (x z : String) :
    ∀ (l : List String) (i : Nat), i < l.length →
    (l.set i z).count x + (if l.getD i "" = x then 1 else 0) =
      l.count x + (if z = x then 1 else 0) := by
  intro l
  induction l with
  | nil => intro i h; simp at h
  | cons a rest ih =>
    intro i h
    cases i with
    | zero =>
      simp only [List.set_cons_zero, List.getD_cons_zero, List.count_cons, beq_iff_eq]
      omega
    | succ n =>
      have hn : n < rest.length := by simpa using h
      have hrec := ih n hn
      simp only [List.set_cons_succ, List.getD_cons_succ, List.count_cons, beq_iff_eq]
      omega

theorem count_dropLast (x : String) :
    ∀ (l : List String) (z : String), l.getLast? = some z →
    l.dropLast.count x + (if z = x then 1 else 0) = l.count x := by
  intro l
  induction l with
  | nil => intro z h; cases h
  | cons a rest ih =>
    intro z h
    cases rest with
    | nil =>
      have hz : z = a := by
        have : (some a : Option String) = some z := by simpa [List.getLast?] using h
        cases this; rfl
      subst hz
      simp [List.count_cons]
    | cons b rest' =>
      rw [List.getLast?_cons_cons] at h
      have hrec := ih z h
      show ((a :: (b :: rest').dropLast).count x) + _ = _
      simp only [List.count_cons, beq_iff_eq] at hrec ⊢
      omega

theorem getD_last (z : String) :
    ∀ (l : List String) (i : Nat), l.getLast? = some z → i + 1 = l.length →
    l.getD i "" = z := by
  intro l
  induction l with
  | nil => intro i h _; cases h
  | cons a rest ih =>
    intro i h hlen
    cases rest with
    | nil =>
      have hi : i = 0 := by simpa using hlen
      subst hi
      have : (some a : Option String) = some z := by simpa [List.getLast?] using h
      cases this
      rfl
    | cons b rest' =>
      rw [List.getLast?_cons_cons] at h
      cases i with
      | zero => simp at hlen
      | succ n =>
        have hlen' : n + 1 = (b :: rest').length := by simpa using hlen
        simpa [List.getD_cons_succ] using ih n h hlen'

theorem getD_dropLast (d : String) :
    ∀ (l : List String) (i : Nat), i + 1 < l.length →
    l.dropLast.getD i d = l.getD i d := by
  intro l
  induction l with
  | nil => intro i h; simp at h
  | cons a rest ih =>
    intro i h
    cases rest with
    | nil => simp at h
    | cons b rest' =>
      show (a :: (b :: rest').dropLast).getD i d = _
      cases i with
      | zero => rfl
      | succ n =>
        have h' : n + 1 < (b :: rest').length := by simpa using h
        simpa [List.getD_cons_succ] using ih n h'

/-- Applying `swap_remove` at a valid index removes exactly one occurrence of the
element at that index and no other element. -/
theorem swap_remove_count (x : String) (l : List String) (i : Nat) (h : i < l.length) :
    (swap_remove l i).count x + (if l.getD i "" = x then 1 else 0) = l.count x := by
  cases hz : l.getLast? with
  | none =>
    have : l = [] := by
      cases l with
      | nil => rfl
      | cons a rest => simp [List.getLast?_eq_none_iff] at hz
    subst this
    simp at h
  | some z =>
    simp only [swap_remove, hz]
    by_cases hlast : i + 1 = l.length
    · rw [if_pos hlast, getD_last z l i hz hlast]
      exact count_dropLast x l z hz
    · rw [if_neg hlast]
      have hi : i + 1 < l.length := by omega
      have hidrop : i < l.dropLast.length := by
        rw [List.length_dropLast]; omega
      have h1 := count_set_eq x z l.dropLast i hidrop
      rw [getD_dropLast "" l i hi] at h1
      have h2 := count_dropLast x l z hz
      omega

theorem find_index_from_none (cid : String) :
    ∀ (l : List String) (s : Nat), find_index_from cid l s = none ↔ cid ∉ l := by
  intro l
  induction l with
  | nil => intro s; simp [find_index_from]
  | cons a rest ih =>
    intro s
    simp only [find_index_from, List.mem_cons]
    by_cases ha : a = cid
    · simp [ha]
    · simp only [if_neg ha, ih (s + 1)]
      constructor
      · intro hn hc
        rcases hc with hc | hc
        · exact ha hc.symm
        · exact hn hc
      · intro hn hc
        exact hn (.inr hc)

theorem find_index_from_some (cid : String) :
    ∀ (l : List String) (s i : Nat), find_index_from cid l s = some i →
    s ≤ i ∧ i - s < l.length ∧ l.getD (i - s) "" = cid := by
  intro l
  induction l with
  | nil => intro s i h; cases h
  | cons a rest ih =>
    intro s i h
    simp only [find_index_from] at h
    by_cases ha : a = cid
    · rw [if_pos ha] at h
      cases h
      refine ⟨le_refl _, by simp, ?_⟩
      simpa [Nat.sub_self] using ha
    · rw [if_neg ha] at h
      obtain ⟨hs, hlen, hget⟩ := ih (s + 1) i h
      refine ⟨by omega, by simp only [List.length_cons]; omega, ?_⟩
      have hsplit : i - s = (i - (s + 1)) + 1 := by omega
      rw [hsplit]
      simpa [List.getD_cons_succ] using hget

/-- C5: after a failed action chain, `resolve_contract_deploy` — given the
saga invariant that the recorded escrow covers one deposit — behaves as
follows. If the record of the caller exists and the instance id is pending, it
refunds exactly `deposit_for_contract` and removes one occurrence of the
instance id by value lookup with swap-remove semantics (counts of all other
ids unchanged, other accounts untouched). If the record exists but the id is
not found, the call still succeeds and the state is completely unchanged (the
local refund is never persisted). If the record no longer exists, the call
succeeds with no mutation at all. -/
theorem C5_resolve_compensation (c : DeployerContract) (caller iid : String)
    (acct : DeployerAccount) :
    (c.accounts caller = some acct →
      c.deposit_for_contract ≤ acct.near_used_for_storage →
      ((iid ∈ acct.deployed_contracts →
        ∃ acct', resolve_contract_deploy c caller iid false =
            .ok { c with accounts := fun x =>
              if x = caller then some acct' else c.accounts x } ∧
          acct'.near_used_for_storage + c.deposit_for_contract =
            acct.near_used_for_storage ∧
          acct'.near_amount = acct.near_amount ∧
          acct'.deployed_contracts.count iid + 1 = acct.deployed_contracts.count iid ∧
          (∀ x, x ≠ iid →
            acct'.deployed_contracts.count x = acct.deployed_contracts.count x)) ∧
       (iid ∉ acct.deployed_contracts →
        resolve_contract_deploy c caller iid false = .ok c))) ∧
    (c.accounts caller = none → resolve_contract_deploy c caller iid false = .ok c) := by
  constructor
  · intro hacct hdep
    constructor
    · intro hmem
      cases hidx : find_index_from iid acct.deployed_contracts 0 with
      | none =>
        exact absurd hmem ((find_index_from_none iid acct.deployed_contracts 0).mp hidx)
      | some idx =>
        obtain ⟨_, hlen, hget⟩ := find_index_from_some iid acct.deployed_contracts 0 idx hidx
        simp only [Nat.sub_zero] at hlen hget
        refine ⟨{ acct with
            near_used_for_storage := acct.near_used_for_storage - c.deposit_for_contract,
            deployed_contracts := swap_remove acct.deployed_contracts idx }, ?_, ?_, rfl,
            ?_, ?_⟩
        · simp [resolve_contract_deploy, hacct, hdep, hidx]
        · dsimp only
          omega
        · have hsw := swap_remove_count iid acct.deployed_contracts idx hlen
          rw [hget, if_pos rfl] at hsw
          simpa using hsw
        · intro x hx
          have hsw := swap_remove_count x acct.deployed_contracts idx hlen
          rw [hget, if_neg (fun hc => hx hc.symm)] at hsw
          simpa using hsw
    · intro hmem
      have hfind : find_index_from iid acct.deployed_contracts 0 = none :=
        (find_index_from_none iid acct.deployed_contracts 0).mpr hmem
      simp [resolve_contract_deploy, hacct, hdep, hfind]
  · intro hacct
    simp [resolve_contract_deploy, hacct]

/-- A deployer-contract state for the C5 witness: `alice` has escrow 10 for
one deposit and two pending instances. -/
def c5w : DeployerContract :=
  { deposit_for_contract := 10
    accounts := fun x => if x = "alice" then some ⟨100, 10, ["i1", "i2"]⟩ else none }

/-- Witness for C5 on the found path: compensating instance `i1` refunds the
deposit and removes exactly one occurrence of `i1`. -/
theorem C5_witness :
    ∃ acct', resolve_contract_deploy c5w "alice" "i1" false =
        .ok { c5w with accounts := fun x =>
          if x = "alice" then some acct' else c5w.accounts x } ∧
      acct'.near_used_for_storage + c5w.deposit_for_contract =
        (⟨100, 10, ["i1", "i2"]⟩ : DeployerAccount).near_used_for_storage ∧
      acct'.near_amount = (⟨100, 10, ["i1", "i2"]⟩ : DeployerAccount).near_amount ∧
      acct'.deployed_contracts.count "i1" + 1 =
        (⟨100, 10, ["i1", "i2"]⟩ : DeployerAccount).deployed_contracts.count "i1" ∧
      (∀ x, x ≠ "i1" →
        acct'.deployed_contracts.count x =
          (⟨100, 10, ["i1", "i2"]⟩ : DeployerAccount).deployed_contracts.count x) :=
  ((C5_resolve_compensation c5w "alice" "i1" ⟨100, 10, ["i1", "i2"]⟩).1 rfl
    (by decide)).1 (by decide)

end NearSets
